import Mathlib

/-!
Verification of the payment-forwarding example (`forwarding.py`) against its
natural-language specification.

The script is a Jython program driving the bitcoinj wallet library.  We give a
shallow embedding of its pure/effect structure:

* an effectful call is a pair of the diagnostic lines it prints and either a
  returned value or the exception it raises (`Action`);
* the `loud_exceptions` decorator becomes an `Action` transformer
  (`loudWrapper`, `loudExceptionsWithLabel`);
* `forwardCoins` becomes a function from the value credited by the
  transaction, the fee, and the destination to the list of send invocations
  it makes plus its outcome;
* the event-driven listener (`SenderListener.onCoinsReceived` together with
  the depth-future registration) becomes a small-step system over an explicit
  service state, driven by a trace of wallet events.

The wallet library itself (bitcoinj: `Wallet.sendCoins`, the confidence depth
future, `Transaction.REFERENCE_DEFAULT_MIN_TX_FEE`) is repository code that is
not under src/; where its behaviour decides a claim it is modelled from the
spec and marked as such in the doc comment.
-/

namespace Forwarding

/-- The kinds of exception the script distinguishes: a Python `Exception`
(first `except` clause), a `java.lang.Exception` (second clause), and any
other raisable thing, which matches neither clause and so propagates through
the wrapper without being logged. -/
inductive Exc where
  | pyExc (msg : String)
  | javaExc (msg : String)
  | otherExc (msg : String)
deriving DecidableEq, Repr

/-- An effectful call: the diagnostic lines it prints, in order, and either
the value it returns or the exception it raises (the printed lines happen
before the raise). -/
def Action (α : Type) : Type := List String × Except Exc α

/-- The wrapper produced by the `loud_exceptions` decorator around a function
call.  It runs the call; on a Python exception it prints
`** python exception ` followed by the exception and re-raises, on a Java
exception it prints `** java exception` followed by the exception and
re-raises, and any other exception propagates unlogged.  The wrapper body has
no `return`, so on success the wrapped value is dropped and `None` is
returned. -/
def loudWrapper {α : Type} (act : Action α) : Action Unit :=
  match act with
  | (out, Except.ok _) => (out, Except.ok ())
  | (out, Except.error e) =>
    match e with
    | Exc.pyExc m => (out ++ ["** python exception  " ++ m], Except.error (Exc.pyExc m))
    | Exc.javaExc m => (out ++ ["** java exception " ++ m], Except.error (Exc.javaExc m))
    | Exc.otherExc m => (out, Except.error (Exc.otherExc m))

/-- The `loud_exceptions(*args)` entry point when called with a decorator
argument that is not the function itself (for example a context label): the
code takes the `else` branch and returns the bare `_trace` decorator, so the
argument is discarded and the resulting wrapper is independent of it. -/
def loudExceptionsWithLabel {α : Type} (_label : String) (act : Action α) :
    Action Unit :=
  loudWrapper act

/-- One invocation of the send operation of the wallet: the transaction being
forwarded, the destination address passed, and the amount passed. -/
structure SendCall where
  txId : Nat
  dest : String
  amount : Int
deriving DecidableEq, Repr

/-- Modelled from the spec: `Wallet.sendCoins` (the collaborator capability
`send_payment`) is bitcoinj library code not present under src/.  Per the
spec it fails with `InsufficientFundsError` exactly when the amount cannot
cover a positive send, that is when the net amount is not positive, and
otherwise accepts the request and returns a send result. -/
def sendCoins (amount : Int) : Except Exc Int :=
  if amount ≤ 0 then Except.error (Exc.javaExc "InsufficientFundsError")
  else Except.ok amount

/-- The body of `forwardCoins` before decoration: it reads the value `v` the
transaction sent to the wallet, computes `amountToSend = v - fee`
(`Transaction.REFERENCE_DEFAULT_MIN_TX_FEE`, kept as the parameter `fee`),
and binds the result of `w.sendCoins(pg, addr, amountToSend)` to `sr`.  The
first component records the send invocations made. -/
def forwardCoinsBody (v fee : Int) (txId : Nat) (addr : String) :
    List SendCall × Except Exc Int :=
  let amountToSend := v - fee
  ([⟨txId, addr, amountToSend⟩], sendCoins amountToSend)

/-- `forwardCoins` as it appears in the script, decorated with
`@loud_exceptions`: the send invocations made, and the wrapped outcome
(diagnostic output plus either `None` or the re-raised exception). -/
def forwardCoins (v fee : Int) (txId : Nat) (addr : String) :
    List SendCall × Action Unit :=
  let r := forwardCoinsBody v fee txId addr
  (r.1, loudWrapper (([] : List String), r.2))

/-- Configuration fixed at process start: the confirmation depth
(`confirm_wait`), the fee constant (`Transaction.REFERENCE_DEFAULT_MIN_TX_FEE`,
whose numeric value lives in bitcoinj outside src/ and is kept symbolic), and
the destination address (`my_address`). -/
structure Config where
  depth : Nat
  fee : Int
  address : String
deriving DecidableEq, Repr

/-- A record of one firing of a depth-future completion signal: the
transaction, the depth the future was registered for, and the number of
confirmations the transaction had recorded at the moment of firing. -/
structure Fire where
  txId : Nat
  depth : Nat
  confAtFire : Nat
deriving DecidableEq, Repr

/-- The state of the running service: per-transaction confirmation counts and
credited values as the wallet currently reports them, the depth futures
registered and not yet fired (transaction id and registered depth), the send
invocations made so far, the completion-signal firings so far, the diagnostic
log, and the address field stored by `SenderListener.__init__`. -/
structure SvcState where
  conf : List (Nat × Nat)
  val : List (Nat × Int)
  pending : List (Nat × Nat)
  sends : List SendCall
  fires : List Fire
  log : List String
  address : String
deriving DecidableEq, Repr

/-- Events the environment (the wallet library) delivers to the script: a
receive-event for a transaction (`onCoinsReceived`), a new block confirming a
transaction (its confirmation count increases by one), and a change in the
value the wallet reports as sent to it by a transaction. -/
inductive Ev where
  | coinsReceived (t : Nat)
  | blockConfirm (t : Nat)
  | setValue (t : Nat) (v : Int)
deriving DecidableEq, Repr

/-- Update an association list at a key. -/
def setAssoc {α : Type} (l : List (Nat × α)) (t : Nat) (v : α) :
    List (Nat × α) :=
  match l with
  | [] => [(t, v)]
  | (k, x) :: rest =>
    if k = t then (t, v) :: rest else (k, x) :: setAssoc rest t v

/-- The confirmation count the wallet currently reports for a transaction
(zero when unseen). -/
def confOf (s : SvcState) (t : Nat) : Nat :=
  ((s.conf.find? (fun p => p.1 == t)).map (fun p => p.2)).getD 0

/-- The value `tx.getValueSentToMe(w)` the wallet currently reports for a
transaction (zero when unseen). -/
def valOf (s : SvcState) (t : Nat) : Int :=
  ((s.val.find? (fun p => p.1 == t)).map (fun p => p.2)).getD 0

/-- The firing of a completion signal for transaction `t`: the decorated
`onSuccess` callback calls `forwardCoins(tx, w, self.peerGroup, self.address)`,
which re-reads the value the transaction sent to the wallet at this moment,
subtracts the fee and invokes the send operation; the invocation, the firing
and any diagnostic output are recorded.  A failure inside the callback is
logged and re-raised into the dispatcher of the future, so it does not stop
the service. -/
def fireForward (cfg : Config) (s : SvcState) (t : Nat) : SvcState :=
  let r := forwardCoins (valOf s t) cfg.fee t s.address
  { s with
    sends := s.sends ++ r.1
    fires := s.fires ++ [⟨t, cfg.depth, confOf s t⟩]
    log := s.log ++ r.2.1 }

/-- `SenderListener.onCoinsReceived`: prints the receive line, reads the
credited value (bound to `v` and not used for the forward), prints the
callback-creation line, and registers a callback on
`tx.getConfidence().getDepthFuture(confirm_wait)`.  The depth future is
bitcoinj code not under src/ and is modelled from the spec: it is a
single-fire signal that fires as soon as the transaction has recorded at
least the requested number of confirmations, hence immediately at
registration when the requested depth is already reached — in particular
immediately when the depth is `0`. -/
def onCoinsReceived (cfg : Config) (s : SvcState) (t : Nat) : SvcState :=
  let s1 := { s with log := s.log ++
    ["tx received " ++ toString t,
     "creating " ++ toString cfg.depth ++ " confirm callback..."] }
  let _v := valOf s1 t
  if cfg.depth ≤ confOf s1 t then fireForward cfg s1 t
  else { s1 with pending := s1.pending ++ [(t, cfg.depth)] }

/-- Fire a list of ready depth futures in order, each exactly once. -/
def fireAll (cfg : Config) (s : SvcState) (ws : List (Nat × Nat)) : SvcState :=
  match ws with
  | [] => s
  | w :: rest => fireAll cfg (fireForward cfg s w.1) rest

/-- A new block confirms transaction `t`: its confirmation count increases by
one, and every pending depth future for `t` whose requested depth is now
reached fires (each exactly once) and is removed.  Modelled from the spec:
the depth-future bookkeeping is bitcoinj code not under src/. -/
def blockConfirm (cfg : Config) (s : SvcState) (t : Nat) : SvcState :=
  let c := confOf s t + 1
  let ready := s.pending.filter (fun p => p.1 == t && p.2 ≤ c)
  let rest := s.pending.filter (fun p => !(p.1 == t && p.2 ≤ c))
  fireAll cfg { s with conf := setAssoc s.conf t c, pending := rest } ready

/-- One step of the service under an environment event. -/
def stepEv (cfg : Config) (s : SvcState) : Ev → SvcState
  | Ev.coinsReceived t => onCoinsReceived cfg s t
  | Ev.blockConfirm t => blockConfirm cfg s t
  | Ev.setValue t v => { s with val := setAssoc s.val t v }

/-- The state at process start: nothing seen, and the listener constructed
with the configured destination address (`SenderListener.__init__` stores it
in `self.address`). -/
def initState (cfg : Config) : SvcState :=
  ⟨[], [], [], [], [], [], cfg.address⟩

/-- Run the service over a trace of environment events. -/
def run (cfg : Config) (tr : List Ev) : SvcState :=
  tr.foldl (stepEv cfg) (initState cfg)

/-- How many receive-events a trace delivers for transaction `t`. -/
def countReceives (tr : List Ev) (t : Nat) : Nat :=
  (tr.filter (fun e => match e with
    | Ev.coinsReceived u => u == t
    | _ => false)).length

/-- How many send invocations the service has made for transaction `t`. -/
def sendsFor (s : SvcState) (t : Nat) : Nat :=
  (s.sends.filter (fun c => c.txId == t)).length

/-- How many depth futures for transaction `t` are still pending. -/
def pendingFor (s : SvcState) (t : Nat) : Nat :=
  (s.pending.filter (fun p => p.1 == t)).length

/-! ### Claim theorems about the barrier and the forwarding computation -/

/-- C1: for all gross amounts `g` and fixed fee `f`, the forwarding
computation submits a send of exactly `g - f` and succeeds when `g > f`, and
fails with `InsufficientFundsError` when `g ≤ f`. -/
theorem compute_forwards_net (g f : Int) (t : Nat) (a : String) :
    (f < g →
      (forwardCoins g f t a).1 = [⟨t, a, g - f⟩] ∧
      (forwardCoins g f t a).2.2 = Except.ok ()) ∧
    (g ≤ f →
      (forwardCoins g f t a).2.2 =
        Except.error (Exc.javaExc "InsufficientFundsError")) := by
  refine ⟨fun h => ?_, fun h => ?_⟩
  · have hn : ¬ (g - f ≤ 0) := by omega
    simp [forwardCoins, forwardCoinsBody, sendCoins, loudWrapper, hn]
  · have hn : g - f ≤ 0 := by omega
    simp [forwardCoins, forwardCoinsBody, sendCoins, loudWrapper, hn]

/-- Witness for C1 at the concrete inputs of the spec scenario: gross 10000
and fee 1000 give a submitted send of 9000 and success; gross 500 and fee
1000 fail with `InsufficientFundsError`. -/
theorem compute_forwards_net_witness :
    (forwardCoins 10000 1000 1 "mzE").1 = [⟨1, "mzE", 9000⟩] ∧
    (forwardCoins 10000 1000 1 "mzE").2.2 = Except.ok () ∧
    (forwardCoins 500 1000 2 "mzE").2.2 =
      Except.error (Exc.javaExc "InsufficientFundsError") := by
  refine ⟨?_, ?_, ?_⟩
  · have h := ((compute_forwards_net 10000 1000 1 "mzE").1 (by decide)).1
    simpa using h
  · exact ((compute_forwards_net 10000 1000 1 "mzE").1 (by decide)).2
  · exact (compute_forwards_net 500 1000 2 "mzE").2 (by decide)

/-- C4 counterexample: with gross 500 and fee 1000 (gross ≤ fee) the send
call IS reached — `forwardCoins` invokes the send operation of the wallet
with the non-positive amount `-500`; the insufficiency is not detected
locally before submission. -/
theorem insufficiency_not_local_counterexample :
    (forwardCoins 500 1000 9 "mzE").1 = [⟨9, "mzE", -500⟩] ∧
    (forwardCoins 500 1000 9 "mzE").1 ≠ [] ∧
    (forwardCoins 500 1000 9 "mzE").2.2 =
      Except.error (Exc.javaExc "InsufficientFundsError") := by
  refine ⟨rfl, by decide, rfl⟩

/-- C4 (amended): when the gross amount is at most the fee, `forwardCoins`
performs no local check: it still reaches the send call, invoking the send
operation of the wallet with the non-positive amount `g - f`; the
insufficiency is detected by that operation, which fails with
`InsufficientFundsError`, so no forward succeeds. -/
theorem insufficient_send_still_reached (g f : Int) (t : Nat) (a : String)
    (h : g ≤ f) :
    (forwardCoins g f t a).1 = [⟨t, a, g - f⟩] ∧
    g - f ≤ 0 ∧
    (forwardCoins g f t a).2.2 =
      Except.error (Exc.javaExc "InsufficientFundsError") := by
  have hn : g - f ≤ 0 := by omega
  refine ⟨rfl, hn, ?_⟩
  simp [forwardCoins, forwardCoinsBody, sendCoins, loudWrapper, hn]

/-- Witness for the amended C4 at gross 500, fee 1000. -/
theorem insufficient_send_still_reached_witness :
    (forwardCoins 500 1000 9 "addr").1 = [⟨9, "addr", 500 - 1000⟩] ∧
    (500 : Int) - 1000 ≤ 0 ∧
    (forwardCoins 500 1000 9 "addr").2.2 =
      Except.error (Exc.javaExc "InsufficientFundsError") :=
  insufficient_send_still_reached 500 1000 9 "addr" (by decide)

/-- C5 counterexample: wrapping a failing action with the decorator called
under the context label `forwardCoins` logs exactly one line holding only a
fixed marker and the exception message; the label does not occur anywhere in
that line, and the whole wrapped result is unchanged under a different
label — so the context label is not recorded, and no stack or trace
information appears in the log. -/
theorem barrier_no_label_counterexample :
    (loudExceptionsWithLabel "forwardCoins"
      ((([] : List String), Except.error (Exc.pyExc "boom")) : Action Nat)).1 =
      ["** python exception  boom"] ∧
    ¬ List.IsInfix ("forwardCoins".data) (("** python exception  boom").data) ∧
    loudExceptionsWithLabel "forwardCoins"
      ((([] : List String), Except.error (Exc.pyExc "boom")) : Action Nat) =
    loudExceptionsWithLabel "someOtherLabel"
      ((([] : List String), Except.error (Exc.pyExc "boom")) : Action Nat) := by
  refine ⟨rfl, by decide, rfl⟩

/-- C5 (amended): for the exception kinds the barrier catches (Python and
Java exceptions) it records, before re-raising, a single diagnostic line
consisting of a fixed marker and the exception message — not stack or trace
information and not a context label: the decorator arguments are discarded,
so the wrapped result is identical under any two labels. -/
theorem barrier_logs_message_only {α : Type} (l1 l2 : String)
    (out : List String) (m : String) :
    (loudExceptionsWithLabel l1
      ((out, Except.error (Exc.pyExc m)) : Action α)).1 =
      out ++ ["** python exception  " ++ m] ∧
    (loudExceptionsWithLabel l1
      ((out, Except.error (Exc.javaExc m)) : Action α)).1 =
      out ++ ["** java exception " ++ m] ∧
    ∀ (act : Action α),
      loudExceptionsWithLabel l1 act = loudExceptionsWithLabel l2 act :=
  ⟨rfl, rfl, fun _ => rfl⟩

/-- C6: the barrier re-raises the same failure unchanged to the caller for
every error kind, never suppressing it, and on the success path it passes the
diagnostic output through untouched (its only effect beyond the call is
diagnostic output) and returns `None`. -/
theorem barrier_reraises_unchanged {α : Type} (act : Action α) :
    (∀ e : Exc, act.2 = Except.error e →
      (loudWrapper act).2 = Except.error e) ∧
    (∀ x : α, act.2 = Except.ok x →
      (loudWrapper act).1 = act.1 ∧ (loudWrapper act).2 = Except.ok ()) := by
  obtain ⟨out, res⟩ := act
  constructor
  · intro e he
    cases res with
    | ok x => exact absurd he (by simp)
    | error e2 =>
      have h2 : e2 = e := by simpa using he
      subst h2
      cases e2 <;> simp [loudWrapper]
  · intro x hx
    obtain rfl : res = Except.ok x := hx
    simp [loudWrapper]

/-- Witness for C6: a concrete uncatchable failure is re-raised unchanged,
and a concrete success leaves the output untouched. -/
theorem barrier_reraises_unchanged_witness :
    (loudWrapper ((["hello"], Except.error (Exc.otherExc "kill")) :
      Action Nat)).2 = Except.error (Exc.otherExc "kill") ∧
    (loudWrapper ((["hello"], Except.ok (5 : Nat)) : Action Nat)).1 =
      ["hello"] :=
  ⟨(barrier_reraises_unchanged ((["hello"],
      Except.error (Exc.otherExc "kill")) : Action Nat)).1
      (Exc.otherExc "kill") rfl,
   ((barrier_reraises_unchanged ((["hello"], Except.ok (5 : Nat)) :
      Action Nat)).2 5 rfl).1⟩

/-- C10: a call wrapped by the decorator returns `None` whenever the wrapped
function succeeds, whatever the function returned; in particular the send
result bound to `sr` inside `forwardCoins` is discarded: on success the
decorated `forwardCoins` yields `None` and no output. -/
theorem wrapper_returns_none :
    (∀ (α : Type) (out : List String) (x : α),
      loudWrapper (out, Except.ok x) = (out, Except.ok ())) ∧
    (∀ (g f : Int) (t : Nat) (a : String), f < g →
      (forwardCoins g f t a).2 = (([] : List String), Except.ok ())) := by
  constructor
  · intro α out x
    simp [loudWrapper]
  · intro g f t a h
    have hn : ¬ (g - f ≤ 0) := by omega
    simp [forwardCoins, forwardCoinsBody, sendCoins, loudWrapper, hn]

/-- Witness for C10 at a concrete successful wrapped value and a concrete
successful forward. -/
theorem wrapper_returns_none_witness :
    loudWrapper ((["x"], Except.ok (42 : Int)) : Action Int) =
      (["x"], Except.ok ()) ∧
    (forwardCoins 10000 1000 3 "d").2 = (([] : List String), Except.ok ()) :=
  ⟨wrapper_returns_none.1 Int ["x"] 42,
   wrapper_returns_none.2 10000 1000 3 "d" (by decide)⟩

/-! ### Counting lemmas for the event-driven service model -/

theorem pendingFor_fireForward (cfg : Config) (s : SvcState) (u t : Nat) :
    pendingFor (fireForward cfg s u) t = pendingFor s t := rfl

theorem confOf_fireForward (cfg : Config) (s : SvcState) (u t : Nat) :
    confOf (fireForward cfg s u) t = confOf s t := rfl

theorem fireForward_sends (cfg : Config) (s : SvcState) (u : Nat) :
    (fireForward cfg s u).sends =
      s.sends ++ [⟨u, s.address, valOf s u - cfg.fee⟩] := rfl

theorem fireForward_fires (cfg : Config) (s : SvcState) (u : Nat) :
    (fireForward cfg s u).fires =
      s.fires ++ [⟨u, cfg.depth, confOf s u⟩] := rfl

theorem sendsFor_fireForward (cfg : Config) (s : SvcState) (u t : Nat) :
    sendsFor (fireForward cfg s u) t =
      sendsFor s t + (if u = t then 1 else 0) := by
  by_cases h : u = t <;>
    simp [sendsFor, fireForward_sends, List.filter_append, h]

theorem pendingFor_fireAll (cfg : Config) (ws : List (Nat × Nat))
    (s : SvcState) (t : Nat) :
    pendingFor (fireAll cfg s ws) t = pendingFor s t := by
  induction ws generalizing s with
  | nil => rfl
  | cons w rest ih => simp [fireAll, ih, pendingFor_fireForward]

theorem pending_fireAll (cfg : Config) (ws : List (Nat × Nat))
    (s : SvcState) :
    (fireAll cfg s ws).pending = s.pending := by
  induction ws generalizing s with
  | nil => rfl
  | cons w rest ih => simp [fireAll, ih, fireForward]

theorem confOf_fireAll (cfg : Config) (ws : List (Nat × Nat))
    (s : SvcState) (t : Nat) :
    confOf (fireAll cfg s ws) t = confOf s t := by
  induction ws generalizing s with
  | nil => rfl
  | cons w rest ih => simp [fireAll, ih, confOf_fireForward]

theorem sendsFor_fireAll (cfg : Config) (ws : List (Nat × Nat))
    (s : SvcState) (t : Nat) :
    sendsFor (fireAll cfg s ws) t =
      sendsFor s t + (ws.filter (fun p => p.1 == t)).length := by
  induction ws generalizing s with
  | nil => simp [fireAll]
  | cons w rest ih =>
    rw [show fireAll cfg s (w :: rest) = fireAll cfg (fireForward cfg s w.1) rest from rfl,
      ih, sendsFor_fireForward, List.filter_cons]
    by_cases h : w.1 = t <;> simp [h] <;> omega

theorem filter_split_length {α : Type} (l : List α) (P A : α → Bool) :
    ((l.filter P).filter A).length +
      ((l.filter (fun x => !(P x))).filter A).length =
    (l.filter A).length := by
  induction l with
  | nil => simp
  | cons x xs ih =>
    cases hP : P x <;> cases hA : A x <;>
      simp [List.filter_cons, hP, hA, -List.filter_filter] <;> omega

theorem stepEv_count (cfg : Config) (s : SvcState) (e : Ev) (t : Nat) :
    sendsFor (stepEv cfg s e) t + pendingFor (stepEv cfg s e) t =
      sendsFor s t + pendingFor s t +
      (match e with
       | Ev.coinsReceived u => if u = t then 1 else 0
       | _ => 0) := by
  cases e with
  | coinsReceived u =>
    simp only [stepEv, onCoinsReceived]
    split
    · rw [sendsFor_fireForward, pendingFor_fireForward]
      simp only [sendsFor, pendingFor]
      omega
    · by_cases h : u = t <;>
        simp [sendsFor, pendingFor, List.filter_append, h] <;> omega
  | blockConfirm u =>
    simp only [stepEv, blockConfirm]
    rw [sendsFor_fireAll, pendingFor_fireAll]
    have hsplit := filter_split_length s.pending
      (fun p => p.1 == u && decide (p.2 ≤ confOf s u + 1))
      (fun p => p.1 == t)
    simp only [sendsFor, pendingFor]
    have hready : ((s.pending.filter
        (fun p => p.1 == u && decide (p.2 ≤ confOf s u + 1))).filter
        (fun p => p.1 == t)).length =
        (s.pending.filter
          (fun p => p.1 == u && decide (p.2 ≤ confOf s u + 1))).length ∨
        u ≠ t := by
      by_cases h : u = t
      · left
        subst h
        congr 1
        apply List.filter_eq_self.2
        intro p hp
        have := (List.mem_filter.1 hp).2
        simp only [Bool.and_eq_true] at this
        exact this.1
      · right; exact h
    rcases hready with h | h
    · omega
    · -- u ≠ t: the ready list holds only entries for u, none for t
      have hnone : ((s.pending.filter
          (fun p => p.1 == u && decide (p.2 ≤ confOf s u + 1))).filter
          (fun p => p.1 == t)).length = 0 := by
        rw [List.length_eq_zero]
        apply List.filter_eq_nil_iff.2
        intro p hp
        have := (List.mem_filter.1 hp).2
        simp only [Bool.and_eq_true, beq_iff_eq] at this
        simp [this.1, h]
      omega
  | setValue u v => simp [stepEv, sendsFor, pendingFor]

theorem countReceives_cons (e : Ev) (tr : List Ev) (t : Nat) :
    countReceives (e :: tr) t =
      (match e with
       | Ev.coinsReceived u => if u = t then 1 else 0
       | _ => 0) + countReceives tr t := by
  cases e with
  | coinsReceived u =>
    by_cases h : u = t <;> simp [countReceives, List.filter_cons, h] <;> omega
  | blockConfirm u => simp [countReceives, List.filter_cons]
  | setValue u v => simp [countReceives, List.filter_cons]

theorem run_count_aux (cfg : Config) (tr : List Ev) (s : SvcState) (t : Nat) :
    sendsFor (List.foldl (stepEv cfg) s tr) t +
      pendingFor (List.foldl (stepEv cfg) s tr) t =
    sendsFor s t + pendingFor s t + countReceives tr t := by
  induction tr generalizing s with
  | nil => simp [countReceives]
  | cons e tr ih =>
    rw [List.foldl_cons, ih, countReceives_cons]
    have h := stepEv_count cfg s e t
    omega

/-- The central accounting invariant of the listener: every receive-event for
a transaction either has produced a send invocation already or has a depth
future still pending; nothing else produces a send invocation. -/
theorem run_count (cfg : Config) (tr : List Ev) (t : Nat) :
    sendsFor (run cfg tr) t + pendingFor (run cfg tr) t =
      countReceives tr t := by
  have h := run_count_aux cfg tr (initState cfg) t
  simpa [run, initState, sendsFor, pendingFor] using h

/-! ### Claim theorems about the event-driven service model -/

/-- C2: a transaction id for which exactly one receive-event is delivered
receives at most one send submission, and exactly one once its depth future
has resolved (no waiter for it is left pending) — never zero and never more
than one. -/
theorem exactly_once_per_receive (cfg : Config) (tr : List Ev) (t : Nat)
    (h : countReceives tr t = 1) :
    sendsFor (run cfg tr) t ≤ 1 ∧
    (pendingFor (run cfg tr) t = 0 → sendsFor (run cfg tr) t = 1) := by
  have hc := run_count cfg tr t
  omega

/-- Witness for C2: one receive-event for transaction 3 with value 10000,
depth 1, fee 1000; after one confirmation exactly one send is submitted. -/
theorem exactly_once_per_receive_witness :
    sendsFor (run ⟨1, 1000, "dest"⟩
      [Ev.setValue 3 10000, Ev.coinsReceived 3, Ev.blockConfirm 3]) 3 = 1 :=
  (exactly_once_per_receive ⟨1, 1000, "dest"⟩
    [Ev.setValue 3 10000, Ev.coinsReceived 3, Ev.blockConfirm 3] 3
    (by decide)).2 (by decide)

/-- C3 counterexample: the wallet delivers the receive-event for transaction
5 twice; after one confirmation TWO send submissions have been made, so "at
most one ForwardRequest is still submitted" fails — the listener does not
deduplicate by transaction id. -/
theorem duplicate_receive_counterexample :
    countReceives [Ev.setValue 5 10000, Ev.coinsReceived 5,
      Ev.coinsReceived 5, Ev.blockConfirm 5] 5 = 2 ∧
    ¬ sendsFor (run ⟨1, 1000, "dest"⟩ [Ev.setValue 5 10000,
      Ev.coinsReceived 5, Ev.coinsReceived 5, Ev.blockConfirm 5]) 5 ≤ 1 := by
  decide

/-- C3 (amended): the listener keeps no record of handled transaction ids and
performs no deduplication: every delivered receive-event registers its own
depth future, and once all futures for a transaction id have resolved the
number of send submissions for it equals the number of deliveries — so a
re-delivered transaction id produces an additional ForwardRequest. -/
theorem no_dedup_by_txid (cfg : Config) (tr : List Ev) (t : Nat)
    (h : pendingFor (run cfg tr) t = 0) :
    sendsFor (run cfg tr) t = countReceives tr t := by
  have hc := run_count cfg tr t
  omega

/-- Witness for the amended C3: two deliveries for transaction 5 followed by
a confirmation give exactly two send submissions. -/
theorem no_dedup_by_txid_witness :
    sendsFor (run ⟨1, 1000, "dest"⟩ [Ev.setValue 5 10000, Ev.coinsReceived 5,
      Ev.coinsReceived 5, Ev.blockConfirm 5]) 5 =
    countReceives [Ev.setValue 5 10000, Ev.coinsReceived 5,
      Ev.coinsReceived 5, Ev.blockConfirm 5] 5 :=
  no_dedup_by_txid ⟨1, 1000, "dest"⟩ [Ev.setValue 5 10000, Ev.coinsReceived 5,
    Ev.coinsReceived 5, Ev.blockConfirm 5] 5 (by decide)

/-! ### The depth gate and the address invariant -/

theorem find?_setAssoc_self {α : Type} (l : List (Nat × α)) (t : Nat) (v : α) :
    (setAssoc l t v).find? (fun p => p.1 == t) = some (t, v) := by
  induction l with
  | nil => simp [setAssoc]
  | cons hd tl ih =>
    obtain ⟨k, x⟩ := hd
    by_cases h : k = t
    · simp [setAssoc, h]
    · simp [setAssoc, h, List.find?, ih]

theorem confOf_conf_update (s : SvcState) (pnd : List (Nat × Nat))
    (u c : Nat) :
    confOf { s with conf := setAssoc s.conf u c, pending := pnd } u = c := by
  simp [confOf, find?_setAssoc_self]

theorem fireAll_fires_inv (cfg : Config) (ws : List (Nat × Nat))
    (s : SvcState)
    (hf : ∀ fr ∈ s.fires, fr.depth ≤ fr.confAtFire)
    (hw : ∀ w ∈ ws, cfg.depth ≤ confOf s w.1) :
    ∀ fr ∈ (fireAll cfg s ws).fires, fr.depth ≤ fr.confAtFire := by
  induction ws generalizing s with
  | nil => exact hf
  | cons w rest ih =>
    refine ih (fireForward cfg s w.1) ?_ ?_
    · intro fr hfr
      rw [fireForward_fires] at hfr
      rcases List.mem_append.1 hfr with h1 | h2
      · exact hf fr h1
      · have h3 : fr = ⟨w.1, cfg.depth, confOf s w.1⟩ := by simpa using h2
        rw [h3]
        exact hw w (List.mem_cons_self _ _)
    · intro w2 hw2
      rw [confOf_fireForward]
      exact hw w2 (List.mem_cons_of_mem _ hw2)

theorem stepEv_gate_inv (cfg : Config) (s : SvcState) (e : Ev)
    (hf : ∀ fr ∈ s.fires, fr.depth ≤ fr.confAtFire)
    (hp : ∀ p ∈ s.pending, p.2 = cfg.depth) :
    (∀ fr ∈ (stepEv cfg s e).fires, fr.depth ≤ fr.confAtFire) ∧
    (∀ p ∈ (stepEv cfg s e).pending, p.2 = cfg.depth) := by
  cases e with
  | coinsReceived u =>
    simp only [stepEv, onCoinsReceived]
    split
    · next hcond =>
      constructor
      · intro fr hfr
        rw [fireForward_fires] at hfr
        rcases List.mem_append.1 hfr with h1 | h2
        · exact hf fr h1
        · have h3 := by simpa using h2
          rw [h3]
          exact hcond
      · intro p hpp
        exact hp p hpp
    · next hcond =>
      constructor
      · intro fr hfr
        exact hf fr hfr
      · intro p hpp
        rcases List.mem_append.1 hpp with h1 | h2
        · exact hp p h1
        · have h3 : p = (u, cfg.depth) := by simpa using h2
          rw [h3]
  | blockConfirm u =>
    simp only [stepEv, blockConfirm]
    constructor
    · apply fireAll_fires_inv
      · exact hf
      · intro w hw
        have hmem := (List.mem_filter.1 hw).1
        have hcond := (List.mem_filter.1 hw).2
        simp only [Bool.and_eq_true, beq_iff_eq, decide_eq_true_eq] at hcond
        have hdep : w.2 = cfg.depth := hp w hmem
        rw [hcond.1, confOf_conf_update]
        omega
    · intro p hpp
      rw [pending_fireAll] at hpp
      exact hp p (List.mem_of_mem_filter hpp)
  | setValue u v => exact ⟨fun fr hfr => hf fr hfr, fun p hpp => hp p hpp⟩

theorem gate_inv_aux (cfg : Config) (tr : List Ev) (s : SvcState)
    (hf : ∀ fr ∈ s.fires, fr.depth ≤ fr.confAtFire)
    (hp : ∀ p ∈ s.pending, p.2 = cfg.depth) :
    (∀ fr ∈ (List.foldl (stepEv cfg) s tr).fires,
      fr.depth ≤ fr.confAtFire) ∧
    (∀ p ∈ (List.foldl (stepEv cfg) s tr).pending, p.2 = cfg.depth) := by
  induction tr generalizing s with
  | nil => exact ⟨hf, hp⟩
  | cons e tr ih =>
    rw [List.foldl_cons]
    have h := stepEv_gate_inv cfg s e hf hp
    exact ih (stepEv cfg s e) h.1 h.2

theorem fireAll_addr_inv (cfg : Config) (ws : List (Nat × Nat))
    (s : SvcState)
    (ha : s.address = cfg.address)
    (hs : ∀ c ∈ s.sends, c.dest = cfg.address) :
    (fireAll cfg s ws).address = cfg.address ∧
    ∀ c ∈ (fireAll cfg s ws).sends, c.dest = cfg.address := by
  induction ws generalizing s with
  | nil => exact ⟨ha, hs⟩
  | cons w rest ih =>
    refine ih (fireForward cfg s w.1) ha ?_
    intro c hc
    rw [fireForward_sends] at hc
    rcases List.mem_append.1 hc with h1 | h2
    · exact hs c h1
    · have h3 : c = ⟨w.1, s.address, valOf s w.1 - cfg.fee⟩ := by simpa using h2
      rw [h3]
      exact ha

theorem stepEv_addr_inv (cfg : Config) (s : SvcState) (e : Ev)
    (ha : s.address = cfg.address)
    (hs : ∀ c ∈ s.sends, c.dest = cfg.address) :
    (stepEv cfg s e).address = cfg.address ∧
    ∀ c ∈ (stepEv cfg s e).sends, c.dest = cfg.address := by
  cases e with
  | coinsReceived u =>
    simp only [stepEv, onCoinsReceived]
    split
    · constructor
      · exact ha
      · intro c hc
        rw [fireForward_sends] at hc
        rcases List.mem_append.1 hc with h1 | h2
        · exact hs c h1
        · have h3 := by simpa using h2
          rw [h3]
          exact ha
    · exact ⟨ha, hs⟩
  | blockConfirm u =>
    exact fireAll_addr_inv cfg _ _ ha hs
  | setValue u v => exact ⟨ha, hs⟩

theorem addr_inv_aux (cfg : Config) (tr : List Ev) (s : SvcState)
    (ha : s.address = cfg.address)
    (hs : ∀ c ∈ s.sends, c.dest = cfg.address) :
    (List.foldl (stepEv cfg) s tr).address = cfg.address ∧
    ∀ c ∈ (List.foldl (stepEv cfg) s tr).sends, c.dest = cfg.address := by
  induction tr generalizing s with
  | nil => exact ⟨ha, hs⟩
  | cons e tr ih =>
    rw [List.foldl_cons]
    have h := stepEv_addr_inv cfg s e ha hs
    exact ih (stepEv cfg s e) h.1 h.2

/-- C7: every firing of a depth-future completion signal happens with at
least the registered depth of confirmations recorded — so for any depth
`d ≥ 1` the signal never fires before `d` confirmations; and with depth `0`
the signal fires immediately upon registration, whatever the confirmation
state: the receive-event itself produces the firing and the send invocation,
with no wait. -/
theorem depth_future_gate (cfg : Config) (tr : List Ev) :
    (∀ fr ∈ (run cfg tr).fires, fr.depth ≤ fr.confAtFire) ∧
    (cfg.depth = 0 → ∀ (s : SvcState) (t : Nat),
      ((stepEv cfg s (Ev.coinsReceived t)).fires).length =
        s.fires.length + 1 ∧
      ((stepEv cfg s (Ev.coinsReceived t)).sends).length =
        s.sends.length + 1) := by
  constructor
  · exact (gate_inv_aux cfg tr (initState cfg)
      (by simp [initState]) (by simp [initState])).1
  · intro h0 s t
    simp only [stepEv, onCoinsReceived, h0]
    rw [if_pos (Nat.zero_le _)]
    constructor
    · rw [fireForward_fires]
      simp
    · rw [fireForward_sends]
      simp

/-- Witness for C7: in the concrete depth-1 run the recorded firing has one
confirmation at fire time, and with depth 0 a receive-event fires the signal
and submits the send in the same step. -/
theorem depth_future_gate_witness :
    (⟨3, 1, 1⟩ : Fire).depth ≤ (⟨3, 1, 1⟩ : Fire).confAtFire ∧
    ((stepEv ⟨0, 1000, "dest"⟩ (initState ⟨0, 1000, "dest"⟩)
        (Ev.coinsReceived 7)).fires).length =
      (initState ⟨0, 1000, "dest"⟩).fires.length + 1 ∧
    ((stepEv ⟨0, 1000, "dest"⟩ (initState ⟨0, 1000, "dest"⟩)
        (Ev.coinsReceived 7)).sends).length =
      (initState ⟨0, 1000, "dest"⟩).sends.length + 1 :=
  ⟨(depth_future_gate ⟨1, 1000, "dest"⟩
      [Ev.setValue 3 10000, Ev.coinsReceived 3, Ev.blockConfirm 3]).1
      ⟨3, 1, 1⟩ (by decide),
   (depth_future_gate ⟨0, 1000, "dest"⟩ []).2 rfl
     (initState ⟨0, 1000, "dest"⟩) 7⟩

/-- C8: the destination address is stored once at listener construction from
the configuration, is never mutated by any delivered event, and every send
invocation the service makes targets exactly that configured address. -/
theorem destination_fixed (cfg : Config) (tr : List Ev) :
    (run cfg tr).address = cfg.address ∧
    (run cfg tr).address = (initState cfg).address ∧
    ∀ c ∈ (run cfg tr).sends, c.dest = cfg.address := by
  have h := addr_inv_aux cfg tr (initState cfg) rfl (by simp [initState])
  exact ⟨h.1, h.1, h.2⟩

/-- Witness for C8: the concrete run keeps the configured address, and its
send invocation targets it. -/
theorem destination_fixed_witness :
    (run ⟨1, 1000, "mzEjmna15T7DXj4HC9MBEG2UJzgFfEYtFo"⟩
      [Ev.setValue 3 10000, Ev.coinsReceived 3, Ev.blockConfirm 3]).address =
      "mzEjmna15T7DXj4HC9MBEG2UJzgFfEYtFo" ∧
    (⟨3, "mzEjmna15T7DXj4HC9MBEG2UJzgFfEYtFo", 9000⟩ : SendCall).dest =
      "mzEjmna15T7DXj4HC9MBEG2UJzgFfEYtFo" :=
  ⟨(destination_fixed ⟨1, 1000, "mzEjmna15T7DXj4HC9MBEG2UJzgFfEYtFo"⟩
      [Ev.setValue 3 10000, Ev.coinsReceived 3, Ev.blockConfirm 3]).1,
   (destination_fixed ⟨1, 1000, "mzEjmna15T7DXj4HC9MBEG2UJzgFfEYtFo"⟩
      [Ev.setValue 3 10000, Ev.coinsReceived 3, Ev.blockConfirm 3]).2.2
      ⟨3, "mzEjmna15T7DXj4HC9MBEG2UJzgFfEYtFo", 9000⟩ (by decide)⟩

/-- C9: the amount forwarded is computed from the credited value re-read at
the moment the confirmation signal fires, not from the value read inside
`onCoinsReceived`: when the value the wallet reports changes from `v1` at
receipt time to `v2` before the confirmation, the single submission carries
`v2 - fee`, and whenever that differs from `v1 - fee` the submission list is
not the one the receipt-time value would give. -/
theorem value_reread_at_fire (fee v1 v2 : Int) (t : Nat) (a : String) :
    (run ⟨1, fee, a⟩ [Ev.setValue t v1, Ev.coinsReceived t, Ev.setValue t v2,
      Ev.blockConfirm t]).sends = [⟨t, a, v2 - fee⟩] ∧
    (v1 - fee ≠ v2 - fee →
      (run ⟨1, fee, a⟩ [Ev.setValue t v1, Ev.coinsReceived t,
        Ev.setValue t v2, Ev.blockConfirm t]).sends ≠ [⟨t, a, v1 - fee⟩]) := by
  have hmain : (run ⟨1, fee, a⟩ [Ev.setValue t v1, Ev.coinsReceived t,
      Ev.setValue t v2, Ev.blockConfirm t]).sends = [⟨t, a, v2 - fee⟩] := by
    simp [run, stepEv, onCoinsReceived, blockConfirm, fireForward, fireAll,
      forwardCoins, forwardCoinsBody, confOf, valOf, setAssoc, initState,
      List.find?, List.filter]
  refine ⟨hmain, fun hne heq => hne ?_⟩
  rw [hmain] at heq
  have h2 : v2 - fee = v1 - fee := by
    simpa [SendCall.mk.injEq] using heq
  exact h2.symm

/-- Witness for C9: with fee 1000 and the credited value changing from 10000
to 20000 between receipt and confirmation, the submission carries
`20000 - 1000`, and it is not the receipt-time list. -/
theorem value_reread_at_fire_witness :
    (run ⟨1, 1000, "d"⟩ [Ev.setValue 4 10000, Ev.coinsReceived 4,
      Ev.setValue 4 20000, Ev.blockConfirm 4]).sends =
      [⟨4, "d", 20000 - 1000⟩] ∧
    (run ⟨1, 1000, "d"⟩ [Ev.setValue 4 10000, Ev.coinsReceived 4,
      Ev.setValue 4 20000, Ev.blockConfirm 4]).sends ≠
      [⟨4, "d", 10000 - 1000⟩] :=
  ⟨(value_reread_at_fire 1000 10000 20000 4 "d").1,
   (value_reread_at_fire 1000 10000 20000 4 "d").2 (by decide)⟩

end Forwarding

